import Mathlib

/-!
Verification of the ezRPC core: the wire-format codec (format.ts:
autoencode / autodecode), the envelope crypto wrappers (payload.ts:
encrypt / decrypt), the client dispatcher and session state (client.ts),
and the server dispatch logic (server.ts).

JavaScript's single dynamic value universe is embedded as the inductive
type JSVal below.  Strings are lists of characters, byte buffers
(Uint8Array) are lists of naturals, timestamps (Date) carry an optional
count of milliseconds since the epoch (none models the JS Invalid Date,
whose time value is NaN).  Fallible code is embedded with Except:
a thrown exception is an error value that propagates by the bind
discipline, exactly as a JS throw unwinds to the nearest catch.

External collaborators (libsodium's box primitives and hex codec, the
host's Date ISO formatting and parsing, JSON serialization) are modelled
from the spec by executable definitions that satisfy the documented
contracts; each such definition carries a doc comment saying so.
-/

/-! ## Reserved tag prefixes of the wire format (format.ts) -/

/-- The reserved prefix marking a hex-encoded byte buffer on the wire. -/
def hexTag : List Char := ['h', 'e', 'x', '$']

/-- The reserved prefix marking an ISO-formatted timestamp on the wire. -/
def dateTag : List Char := ['d', 'a', 't', 'e', '$']

/-- Embedding of JS String.prototype.startsWith on character lists:
the first argument is the sought prefix, the second the string. -/
def hasTag : List Char → List Char → Bool
  | [], _ => true
  | _ :: _, [] => false
  | t :: ts, c :: cs => t == c && hasTag ts cs

theorem hasTag_append (t r : List Char) : hasTag t (t ++ r) = true := by
  induction t with
  | nil => rfl
  | cons c cs ih => simp [hasTag, ih]

theorem hasTag_hexTag_dateTag (r : List Char) : hasTag hexTag (dateTag ++ r) = false := by
  have h : ('h' == 'd') = false := by decide
  simp [hexTag, dateTag, hasTag, h]

/-! ## Hex codec (modelled from the spec: libsodium's to_hex / from_hex,
external collaborators; to_hex renders each byte as two lowercase hex
digits, high nibble first, and from_hex parses hex digit pairs, accepting
both cases, failing on odd length or non-hex characters). -/

/-- Lowercase hex digit for a nibble value. -/
def hexDigitChar (n : Nat) : Char :=
  if n < 10 then Char.ofNat (n + Char.toNat '0') else Char.ofNat (n - 10 + Char.toNat 'a')

/-- Nibble value of a hex digit, upper or lower case. -/
def hexDigitVal (c : Char) : Option Nat :=
  if Char.toNat '0' ≤ c.toNat ∧ c.toNat ≤ Char.toNat '9' then
    some (c.toNat - Char.toNat '0')
  else if Char.toNat 'a' ≤ c.toNat ∧ c.toNat ≤ Char.toNat 'f' then
    some (c.toNat - Char.toNat 'a' + 10)
  else if Char.toNat 'A' ≤ c.toNat ∧ c.toNat ≤ Char.toNat 'F' then
    some (c.toNat - Char.toNat 'A' + 10)
  else none

/-- Modelled from the spec: libsodium sodium.to_hex. -/
def to_hex : List Nat → List Char
  | [] => []
  | b :: bs => hexDigitChar (b / 16) :: hexDigitChar (b % 16) :: to_hex bs

/-- Modelled from the spec: libsodium sodium.from_hex; a parse failure
models the exception the library throws on malformed input. -/
def from_hex : List Char → Option (List Nat)
  | [] => some []
  | [_] => none
  | c1 :: c2 :: cs =>
    match hexDigitVal c1, hexDigitVal c2, from_hex cs with
    | some hi, some lo, some rest => some ((hi * 16 + lo) :: rest)
    | _, _, _ => none

theorem hexDigitVal_hexDigitChar {n : Nat} (h : n < 16) :
    hexDigitVal (hexDigitChar n) = some n := by
  have hall : ∀ d : Fin 16, hexDigitVal (hexDigitChar d.val) = some d.val := by decide
  simpa using hall ⟨n, h⟩

theorem from_hex_to_hex (bs : List Nat) (h : ∀ b ∈ bs, b < 256) :
    from_hex (to_hex bs) = some bs := by
  induction bs with
  | nil => rfl
  | cons b bs ih =>
    have hb : b < 256 := h b (by simp)
    have h1 : b / 16 < 16 := by omega
    have h2 : b % 16 < 16 := by omega
    have ihh := ih (fun x hx => h x (by simp [hx]))
    simp [to_hex, from_hex, hexDigitVal_hexDigitChar h1, hexDigitVal_hexDigitChar h2, ihh]
    omega

/-! ## Timestamp rendering (modelled from the spec: the host's
Date.prototype.toISOString and the Date constructor's string parsing are
external platform functions; they are modelled as a millisecond-precision
injective rendering of the time value together with a parser that inverts
it, and the parser returns none exactly where the host would produce an
Invalid Date).  The digit order of the rendering is internal to the
model; only the inverse law matters to the code under verification. -/

def digitChar (n : Nat) : Char := hexDigitChar n

def digitVal (c : Char) : Option Nat :=
  if Char.toNat '0' ≤ c.toNat ∧ c.toNat ≤ Char.toNat '9' then
    some (c.toNat - Char.toNat '0')
  else none

def natChars (n : Nat) : List Char := (Nat.digits 10 n).map digitChar

/-- Read a list of decimal digit values, failing on any other character. -/
def readDigits : List Char → Option (List Nat)
  | [] => some []
  | c :: cs =>
    match digitVal c, readDigits cs with
    | some d, some ds => some (d :: ds)
    | _, _ => none

def parseNatChars (s : List Char) : Option Nat :=
  match readDigits s with
  | some ds => some (Nat.ofDigits 10 ds)
  | none => none

theorem readDigits_digitChar (ds : List Nat) (h : ∀ d ∈ ds, d < 10) :
    readDigits (ds.map digitChar) = some ds := by
  induction ds with
  | nil => rfl
  | cons d ds ih =>
    have hd : d < 10 := h d (by simp)
    have h1 : digitVal (digitChar d) = some d := by
      have hall : ∀ x : Fin 10, digitVal (digitChar x.val) = some x.val := by decide
      simpa using hall ⟨d, hd⟩
    have ihh := ih (fun x hx => h x (by simp [hx]))
    simp [readDigits, h1, ihh]

theorem parseNatChars_natChars (n : Nat) : parseNatChars (natChars n) = some n := by
  have hlt : ∀ d ∈ Nat.digits 10 n, d < 10 := fun d hd =>
    Nat.digits_lt_base (by omega) hd
  simp [parseNatChars, natChars, readDigits_digitChar _ hlt, Nat.ofDigits_digits]

/-- Modelled from the spec: Date.prototype.toISOString (millisecond
precision rendering of the time value). -/
def isoOfMillis (t : Int) : List Char :=
  if t < 0 then '-' :: natChars t.natAbs else natChars t.natAbs

/-- Modelled from the spec: the Date constructor's string parsing;
none models an Invalid Date result. -/
def parseMillis (s : List Char) : Option Int :=
  if s.head? = some '-' then
    match parseNatChars (s.drop 1) with
    | some n => some (-(n : Int))
    | none => none
  else
    match parseNatChars s with
    | some n => some ((n : Int))
    | none => none

theorem natChars_head?_ne (n : Nat) : (natChars n).head? ≠ some '-' := by
  cases hd : Nat.digits 10 n with
  | nil => simp [natChars, hd]
  | cons d ds =>
    have hlt : d < 10 := Nat.digits_lt_base (by omega) (by rw [hd]; simp)
    have hne : digitChar d ≠ '-' := by
      have hall : ∀ x : Fin 10, digitChar x.val ≠ '-' := by decide
      simpa using hall ⟨d, hlt⟩
    simp [natChars, hd, hne]

theorem parseMillis_isoOfMillis (t : Int) : parseMillis (isoOfMillis t) = some t := by
  by_cases ht : t < 0
  · rw [isoOfMillis, if_pos ht, parseMillis,
      if_pos (show ('-' :: natChars t.natAbs).head? = some '-' from rfl)]
    simp only [List.drop_succ_cons, List.drop_zero, parseNatChars_natChars]
    congr 1
    omega
  · rw [isoOfMillis, if_neg ht, parseMillis, if_neg (natChars_head?_ne t.natAbs)]
    simp only [parseNatChars_natChars]
    congr 1
    omega

/-! ## The JS value universe

One inductive type embeds every JS value the codec can meet: null,
booleans, numbers, strings, byte buffers (Uint8Array), timestamps
(Date; the argument none models an Invalid Date, whose time value is
NaN), arrays, and plain string-keyed objects (fields in insertion
order, as traversed by a for-in loop). -/

inductive JSVal where
  | null
  | bool (b : Bool)
  | num (n : Int)
  | str (s : List Char)
  | bytes (bs : List Nat)
  | date (t : Option Int)
  | arr (elems : List JSVal)
  | obj (fields : List (List Char × JSVal))

/-- Structural induction for JSVal, giving member hypotheses for the
nested lists of an array and of an object. -/
def JSVal.inductionOn (P : JSVal → Prop)
    (h0 : P .null) (h1 : ∀ b, P (.bool b)) (h2 : ∀ n, P (.num n)) (h3 : ∀ s, P (.str s))
    (h4 : ∀ bs, P (.bytes bs)) (h5 : ∀ t, P (.date t))
    (h6 : ∀ xs, (∀ x, x ∈ xs → P x) → P (.arr xs))
    (h7 : ∀ ps, (∀ p, p ∈ ps → P p.2) → P (.obj ps)) :
    ∀ v, P v
  | .null => h0
  | .bool b => h1 b
  | .num n => h2 n
  | .str s => h3 s
  | .bytes bs => h4 bs
  | .date t => h5 t
  | .arr xs => h6 xs (fun x hx => JSVal.inductionOn P h0 h1 h2 h3 h4 h5 h6 h7 x)
  | .obj ps => h7 ps (fun p hp => JSVal.inductionOn P h0 h1 h2 h3 h4 h5 h6 h7 p.2)
termination_by v => sizeOf v
decreasing_by
  · have hlt := List.sizeOf_lt_of_mem hx
    simp only [JSVal.arr.sizeOf_spec]
    omega
  · have hlt := List.sizeOf_lt_of_mem hp
    obtain ⟨a, b⟩ := p
    simp only [JSVal.obj.sizeOf_spec, Prod.mk.sizeOf_spec] at *
    omega

/-- The exceptions that the embedded core can raise: the throw of
sodium.from_hex on malformed hex (the spec's EncodingError), the
RangeError of toISOString on an Invalid Date, the throw of
crypto_box_open_easy on an authenticity failure (the spec's
AuthenticationFailure), and a JSON.parse failure. -/
inductive RPCError where
  | encodingError
  | invalidDate
  | authenticationFailure
  | parseError
deriving DecidableEq

/-! ## The wire codec (format.ts: autoencode / autodecode)

autoencode walks a value: null passes through, a Uint8Array becomes a
string tagged hex$ followed by its lowercase hex digits, an array is
rebuilt elementwise, a Date becomes a string tagged date$ followed by
its ISO rendering (throwing a RangeError when the Date is invalid),
any other object is rebuilt field by field with a for-in loop, and
remaining scalars pass through unchanged. -/

mutual

def autoencode : JSVal → Except RPCError JSVal
  | .null => .ok .null
  | .bytes bs => .ok (.str (hexTag ++ to_hex bs))
  | .arr xs =>
    match autoencodeList xs with
    | .ok ys => .ok (.arr ys)
    | .error e => .error e
  | .date (some t) => .ok (.str (dateTag ++ isoOfMillis t))
  | .date none => .error .invalidDate
  | .obj ps =>
    match autoencodeFields ps with
    | .ok qs => .ok (.obj qs)
    | .error e => .error e
  | .bool b => .ok (.bool b)
  | .num n => .ok (.num n)
  | .str s => .ok (.str s)

def autoencodeList : List JSVal → Except RPCError (List JSVal)
  | [] => .ok []
  | x :: xs =>
    match autoencode x with
    | .ok y =>
      match autoencodeList xs with
      | .ok ys => .ok (y :: ys)
      | .error e => .error e
    | .error e => .error e

def autoencodeFields : List (List Char × JSVal) → Except RPCError (List (List Char × JSVal))
  | [] => .ok []
  | (k, v) :: ps =>
    match autoencode v with
    | .ok w =>
      match autoencodeFields ps with
      | .ok qs => .ok ((k, w) :: qs)
      | .error e => .error e
    | .error e => .error e

end

/-- The object a for-in loop sees when autodecode reaches a Uint8Array:
index keys (rendered in the model's digit order) with numeric values;
the recursive call of autodecode on each number returns it unchanged. -/
def enumFields (bs : List Nat) : List (List Char × JSVal) :=
  ((List.range bs.length).zip bs).map fun p => (natChars p.1, .num (p.2 : Int))

/-! autodecode walks a wire value: null passes through; a string with
the hex$ tag has its remainder hex-decoded (from_hex throws on
malformed hex and the throw propagates), a string with the date$ tag
has its remainder parsed as a timestamp by the Date constructor, which
never throws and yields an Invalid Date on unparseable input; any
other string passes through; arrays and objects recurse.  A Uint8Array
or Date reaching autodecode falls into the generic object branch,
whose for-in loop rebuilds it as a plain object. -/

mutual

def autodecode : JSVal → Except RPCError JSVal
  | .null => .ok .null
  | .str s =>
    if hasTag hexTag s then
      match from_hex (s.drop 4) with
      | some bs => .ok (.bytes bs)
      | none => .error .encodingError
    else if hasTag dateTag s then
      .ok (.date (parseMillis (s.drop 5)))
    else
      .ok (.str s)
  | .arr xs =>
    match autodecodeList xs with
    | .ok ys => .ok (.arr ys)
    | .error e => .error e
  | .bytes bs => .ok (.obj (enumFields bs))
  | .date _ => .ok (.obj [])
  | .obj ps =>
    match autodecodeFields ps with
    | .ok qs => .ok (.obj qs)
    | .error e => .error e
  | .bool b => .ok (.bool b)
  | .num n => .ok (.num n)

def autodecodeList : List JSVal → Except RPCError (List JSVal)
  | [] => .ok []
  | x :: xs =>
    match autodecode x with
    | .ok y =>
      match autodecodeList xs with
      | .ok ys => .ok (y :: ys)
      | .error e => .error e
    | .error e => .error e

def autodecodeFields : List (List Char × JSVal) → Except RPCError (List (List Char × JSVal))
  | [] => .ok []
  | (k, v) :: ps =>
    match autodecode v with
    | .ok w =>
      match autodecodeFields ps with
      | .ok qs => .ok ((k, w) :: qs)
      | .error e => .error e
    | .error e => .error e

end

/-- Keys of an object are pairwise distinct, as they necessarily are
for a real JS object. -/
def distinctKeys : List (List Char × JSVal) → Bool
  | [] => true
  | (k, _) :: ps => !(ps.any fun q => q.1 == k) && distinctKeys ps

/-! The supported value universe of the round-trip law: any finite
nesting of null, booleans, numbers, plain strings that do not begin
with a reserved tag, byte buffers (elements below 256, as in a real
Uint8Array), valid timestamps, arrays, and string-keyed objects with
distinct keys. -/

mutual

def SupportedB : JSVal → Bool
  | .null => true
  | .bool _ => true
  | .num _ => true
  | .str s => !(hasTag hexTag s) && !(hasTag dateTag s)
  | .bytes bs => bs.all fun b => b < 256
  | .date (some _) => true
  | .date none => false
  | .arr xs => SupportedListB xs
  | .obj ps => distinctKeys ps && SupportedFieldsB ps

def SupportedListB : List JSVal → Bool
  | [] => true
  | x :: xs => SupportedB x && SupportedListB xs

def SupportedFieldsB : List (List Char × JSVal) → Bool
  | [] => true
  | (_, v) :: ps => SupportedB v && SupportedFieldsB ps

end

/-! The image of autoencode: wire values containing no byte buffer and
no timestamp, only null, booleans, numbers, strings, arrays, and plain
objects. -/

mutual

def EncodedB : JSVal → Bool
  | .null => true
  | .bool _ => true
  | .num _ => true
  | .str _ => true
  | .bytes _ => false
  | .date _ => false
  | .arr xs => EncodedListB xs
  | .obj ps => EncodedFieldsB ps

def EncodedListB : List JSVal → Bool
  | [] => true
  | x :: xs => EncodedB x && EncodedListB xs

def EncodedFieldsB : List (List Char × JSVal) → Bool
  | [] => true
  | (_, v) :: ps => EncodedB v && EncodedFieldsB ps

end

/-! ## Round-trip law of the wire codec -/

theorem autoencodeList_roundtrip (l : List JSVal)
    (ih : ∀ x ∈ l, SupportedB x = true → ∃ w, autoencode x = .ok w ∧ autodecode w = .ok x)
    (h : SupportedListB l = true) :
    ∃ ws, autoencodeList l = .ok ws ∧ autodecodeList ws = .ok l := by
  induction l with
  | nil => exact ⟨[], rfl, rfl⟩
  | cons x xs ihl =>
    simp only [SupportedListB, Bool.and_eq_true] at h
    obtain ⟨w, hw1, hw2⟩ := ih x (by simp) h.1
    obtain ⟨ws, hws1, hws2⟩ := ihl (fun y hy => ih y (by simp [hy])) h.2
    exact ⟨w :: ws, by simp [autoencodeList, hw1, hws1],
      by simp [autodecodeList, hw2, hws2]⟩

theorem autoencodeFields_roundtrip (l : List (List Char × JSVal))
    (ih : ∀ p ∈ l, SupportedB p.2 = true → ∃ w, autoencode p.2 = .ok w ∧ autodecode w = .ok p.2)
    (h : SupportedFieldsB l = true) :
    ∃ qs, autoencodeFields l = .ok qs ∧ autodecodeFields qs = .ok l := by
  induction l with
  | nil => exact ⟨[], rfl, rfl⟩
  | cons p ps ihl =>
    obtain ⟨k, v⟩ := p
    simp only [SupportedFieldsB, Bool.and_eq_true] at h
    obtain ⟨w, hw1, hw2⟩ := ih (k, v) (by simp) h.1
    obtain ⟨qs, hqs1, hqs2⟩ := ihl (fun q hq => ih q (by simp [hq])) h.2
    exact ⟨(k, w) :: qs, by simp [autoencodeFields, hw1, hqs1],
      by simp [autodecodeFields, hw2, hqs2]⟩

/-- Core round-trip law: on every supported value, autoencode succeeds
and autodecode inverts it exactly. -/
theorem encode_decode_roundtrip :
    ∀ v, SupportedB v = true → ∃ w, autoencode v = .ok w ∧ autodecode w = .ok v := by
  intro v
  induction v using JSVal.inductionOn with
  | h0 => exact fun _ => ⟨.null, rfl, rfl⟩
  | h1 b => exact fun _ => ⟨.bool b, rfl, rfl⟩
  | h2 n => exact fun _ => ⟨.num n, rfl, rfl⟩
  | h3 s =>
    intro h
    simp only [SupportedB, Bool.and_eq_true, Bool.not_eq_true'] at h
    exact ⟨.str s, rfl, by simp [autodecode, h.1, h.2]⟩
  | h4 bs =>
    intro h
    simp only [SupportedB, List.all_eq_true, decide_eq_true_eq] at h
    have h4 : (hexTag ++ to_hex bs).drop 4 = to_hex bs := List.drop_left hexTag (to_hex bs)
    exact ⟨.str (hexTag ++ to_hex bs), rfl,
      by simp [autodecode, hasTag_append, h4, from_hex_to_hex bs h]⟩
  | h5 t =>
    intro h
    cases t with
    | none => simp [SupportedB] at h
    | some t =>
      have h5 : (dateTag ++ isoOfMillis t).drop 5 = isoOfMillis t :=
        List.drop_left dateTag (isoOfMillis t)
      exact ⟨.str (dateTag ++ isoOfMillis t), rfl,
        by simp [autodecode, hasTag_hexTag_dateTag, hasTag_append, h5,
          parseMillis_isoOfMillis]⟩
  | h6 xs ih =>
    intro h
    simp only [SupportedB] at h
    obtain ⟨ws, hws1, hws2⟩ := autoencodeList_roundtrip xs ih h
    exact ⟨.arr ws, by simp [autoencode, hws1], by simp [autodecode, hws2]⟩
  | h7 ps ih =>
    intro h
    simp only [SupportedB, Bool.and_eq_true] at h
    obtain ⟨qs, hqs1, hqs2⟩ := autoencodeFields_roundtrip ps ih h.2
    exact ⟨.obj qs, by simp [autoencode, hqs1], by simp [autodecode, hqs2]⟩

/-! ## The image of autoencode is tag-free of buffers and timestamps -/

theorem autoencodeList_encoded (l : List JSVal)
    (ih : ∀ x ∈ l, ∀ w, autoencode x = .ok w → EncodedB w = true) :
    ∀ ws, autoencodeList l = .ok ws → EncodedListB ws = true := by
  induction l with
  | nil => intro ws hws; simp [autoencodeList] at hws; subst hws; rfl
  | cons x xs ihl =>
    intro ws hws
    simp only [autoencodeList] at hws
    cases hx : autoencode x with
    | error e => rw [hx] at hws; simp at hws
    | ok y =>
      rw [hx] at hws
      cases hxs : autoencodeList xs with
      | error e => rw [hxs] at hws; simp at hws
      | ok ys =>
        rw [hxs] at hws
        simp only [Except.ok.injEq] at hws
        subst hws
        have h1 := ih x (by simp) y hx
        have h2 := ihl (fun z hz => ih z (by simp [hz])) ys hxs
        simp [EncodedListB, h1, h2]

theorem autoencodeFields_encoded (l : List (List Char × JSVal))
    (ih : ∀ p ∈ l, ∀ w, autoencode p.2 = .ok w → EncodedB w = true) :
    ∀ qs, autoencodeFields l = .ok qs → EncodedFieldsB qs = true := by
  induction l with
  | nil => intro qs hqs; simp [autoencodeFields] at hqs; subst hqs; rfl
  | cons p ps ihl =>
    obtain ⟨k, v⟩ := p
    intro qs hqs
    simp only [autoencodeFields] at hqs
    cases hv : autoencode v with
    | error e => rw [hv] at hqs; simp at hqs
    | ok w =>
      rw [hv] at hqs
      cases hps : autoencodeFields ps with
      | error e => rw [hps] at hqs; simp at hqs
      | ok rs =>
        rw [hps] at hqs
        simp only [Except.ok.injEq] at hqs
        subst hqs
        have h1 := ih (k, v) (by simp) w hv
        have h2 := ihl (fun q hq => ih q (by simp [hq])) rs hps
        simp [EncodedFieldsB, h1, h2]

theorem autoencode_encoded :
    ∀ v, ∀ w, autoencode v = .ok w → EncodedB w = true := by
  intro v
  induction v using JSVal.inductionOn with
  | h0 => intro w hw; simp [autoencode] at hw; subst hw; rfl
  | h1 b => intro w hw; simp [autoencode] at hw; subst hw; rfl
  | h2 n => intro w hw; simp [autoencode] at hw; subst hw; rfl
  | h3 s => intro w hw; simp [autoencode] at hw; subst hw; rfl
  | h4 bs => intro w hw; simp [autoencode] at hw; subst hw; rfl
  | h5 t =>
    intro w hw
    cases t with
    | none => simp [autoencode] at hw
    | some t => simp [autoencode] at hw; subst hw; rfl
  | h6 xs ih =>
    intro w hw
    simp only [autoencode] at hw
    cases hl : autoencodeList xs with
    | error e => rw [hl] at hw; simp at hw
    | ok ys =>
      rw [hl] at hw
      simp only [Except.ok.injEq] at hw
      subst hw
      exact autoencodeList_encoded xs ih ys hl
  | h7 ps ih =>
    intro w hw
    simp only [autoencode] at hw
    cases hl : autoencodeFields ps with
    | error e => rw [hl] at hw; simp at hw
    | ok qs =>
      rw [hl] at hw
      simp only [Except.ok.injEq] at hw
      subst hw
      exact autoencodeFields_encoded ps ih qs hl

theorem encodedList_fix (l : List JSVal)
    (ih : ∀ x ∈ l, EncodedB x = true → autoencode x = .ok x) :
    EncodedListB l = true → autoencodeList l = .ok l := by
  induction l with
  | nil => intro _; rfl
  | cons x xs ihl =>
    intro h
    simp only [EncodedListB, Bool.and_eq_true] at h
    have h1 := ih x (by simp) h.1
    have h2 := ihl (fun y hy => ih y (by simp [hy])) h.2
    simp [autoencodeList, h1, h2]

theorem encodedFields_fix (l : List (List Char × JSVal))
    (ih : ∀ p ∈ l, EncodedB p.2 = true → autoencode p.2 = .ok p.2) :
    EncodedFieldsB l = true → autoencodeFields l = .ok l := by
  induction l with
  | nil => intro _; rfl
  | cons p ps ihl =>
    obtain ⟨k, v⟩ := p
    intro h
    simp only [EncodedFieldsB, Bool.and_eq_true] at h
    have h1 := ih (k, v) (by simp) h.1
    have h2 := ihl (fun q hq => ih q (by simp [hq])) h.2
    simp [autoencodeFields, h1, h2]

theorem encoded_fix :
    ∀ v, EncodedB v = true → autoencode v = .ok v := by
  intro v
  induction v using JSVal.inductionOn with
  | h0 => intro _; rfl
  | h1 b => intro _; rfl
  | h2 n => intro _; rfl
  | h3 s => intro _; rfl
  | h4 bs => intro h; simp [EncodedB] at h
  | h5 t => intro h; simp [EncodedB] at h
  | h6 xs ih =>
    intro h
    simp only [EncodedB] at h
    simp [autoencode, encodedList_fix xs ih h]
  | h7 ps ih =>
    intro h
    simp only [EncodedB] at h
    simp [autoencode, encodedFields_fix ps ih h]

/-! ## Serialized wire strings

Modelled from the spec: encrypt serializes the encoded value to a JSON
string (JSON.stringify) whose bytes become the box plaintext, and
decrypt parses the decrypted plaintext back (JSON.parse, which throws
on malformed input).  Both are host built-ins, external to the
repository; they are modelled by an executable flat serialization of
wire values into the plaintext byte list together with a parser that
inverts it and fails on any input that is not exactly one serialized
value. -/

mutual

def serializeV : JSVal → List Nat
  | .null => [0]
  | .bool b => [1, cond b 1 0]
  | .num n => [2, if n < 0 then 1 else 0, n.natAbs]
  | .str s => 3 :: s.length :: s.map Char.toNat
  | .bytes bs => 4 :: bs.length :: bs
  | .date none => [5, 0]
  | .date (some t) => [5, 1, if t < 0 then 1 else 0, t.natAbs]
  | .arr xs => 6 :: xs.length :: serializeList xs
  | .obj ps => 7 :: ps.length :: serializeFields ps

def serializeList : List JSVal → List Nat
  | [] => []
  | x :: xs => serializeV x ++ serializeList xs

def serializeFields : List (List Char × JSVal) → List Nat
  | [] => []
  | (k, v) :: ps => k.length :: (k.map Char.toNat ++ (serializeV v ++ serializeFields ps))

end

/-- Sign-and-magnitude reading of a serialized integer. -/
def decodeZ (s m : Nat) : Int := if s = 1 then -(m : Int) else (m : Int)

mutual

def deserV : Nat → List Nat → Option (JSVal × List Nat)
  | 0, _ => none
  | _ + 1, 0 :: rest => some (.null, rest)
  | _ + 1, 1 :: b :: rest => some (.bool (b == 1), rest)
  | _ + 1, 2 :: s :: m :: rest => some (.num (decodeZ s m), rest)
  | _ + 1, 3 :: n :: rest => some (.str ((rest.take n).map Char.ofNat), rest.drop n)
  | _ + 1, 4 :: n :: rest => some (.bytes (rest.take n), rest.drop n)
  | _ + 1, 5 :: 0 :: rest => some (.date none, rest)
  | _ + 1, 5 :: 1 :: s :: m :: rest => some (.date (some (decodeZ s m)), rest)
  | fuel + 1, 6 :: n :: rest =>
    match deserList fuel n rest with
    | some (xs, r) => some (.arr xs, r)
    | none => none
  | fuel + 1, 7 :: n :: rest =>
    match deserFields fuel n rest with
    | some (ps, r) => some (.obj ps, r)
    | none => none
  | _ + 1, _ => none

def deserList : Nat → Nat → List Nat → Option (List JSVal × List Nat)
  | _, 0, l => some ([], l)
  | 0, _ + 1, _ => none
  | fuel + 1, k + 1, l =>
    match deserV fuel l with
    | some (x, r) =>
      match deserList fuel k r with
      | some (xs, r2) => some (x :: xs, r2)
      | none => none
    | none => none

def deserFields : Nat → Nat → List Nat → Option (List (List Char × JSVal) × List Nat)
  | _, 0, l => some ([], l)
  | 0, _ + 1, _ => none
  | fuel + 1, k + 1, kl :: rest =>
    match deserV fuel (rest.drop kl) with
    | some (v, r) =>
      match deserFields fuel k r with
      | some (ps, r2) => some (((rest.take kl).map Char.ofNat, v) :: ps, r2)
      | none => none
    | none => none
  | _ + 1, _ + 1, [] => none

end

/-- Parse a whole serialized wire string; none models the throw of
JSON.parse on malformed input. -/
def deserializeV (l : List Nat) : Option JSVal :=
  match deserV l.length l with
  | some (v, []) => some v
  | _ => none

/-! Fuel accounting for the parser: the depth measure dominated by the
serialized length. -/

mutual

def depthV : JSVal → Nat
  | .arr xs => 1 + depthList xs
  | .obj ps => 1 + depthFields ps
  | _ => 1

def depthList : List JSVal → Nat
  | [] => 0
  | x :: xs => 1 + max (depthV x) (depthList xs)

def depthFields : List (List Char × JSVal) → Nat
  | [] => 0
  | (_, v) :: ps => 1 + max (depthV v) (depthFields ps)

end

theorem depthV_pos (v : JSVal) : 1 ≤ depthV v := by
  cases v <;> simp [depthV]

theorem serializeV_length_pos (v : JSVal) : 1 ≤ (serializeV v).length := by
  cases v with
  | null => simp [serializeV]
  | bool b => simp [serializeV]
  | num n => simp [serializeV]
  | str s => simp [serializeV]
  | bytes bs => simp [serializeV]
  | date t => cases t <;> simp [serializeV]
  | arr xs => simp [serializeV]
  | obj ps => simp [serializeV]

theorem depthList_le (l : List JSVal)
    (ih : ∀ x ∈ l, depthV x ≤ (serializeV x).length) :
    depthList l ≤ 1 + (serializeList l).length := by
  induction l with
  | nil => simp [depthList, serializeList]
  | cons x xs ihl =>
    have h1 := ih x (by simp)
    have h2 := ihl (fun y hy => ih y (by simp [hy]))
    have h3 := serializeV_length_pos x
    simp only [depthList, serializeList, List.length_append]
    omega

theorem depthFields_le (l : List (List Char × JSVal))
    (ih : ∀ p ∈ l, depthV p.2 ≤ (serializeV p.2).length) :
    depthFields l ≤ 1 + (serializeFields l).length := by
  induction l with
  | nil => simp [depthFields, serializeFields]
  | cons p ps ihl =>
    obtain ⟨k, v⟩ := p
    have h1 : depthV v ≤ (serializeV v).length := ih (k, v) (by simp)
    have h2 := ihl (fun q hq => ih q (by simp [hq]))
    have h3 := serializeV_length_pos v
    simp only [depthFields, serializeFields, List.length_cons, List.length_append]
    omega

theorem depthV_le_serialize : ∀ v, depthV v ≤ (serializeV v).length := by
  intro v
  induction v using JSVal.inductionOn with
  | h0 => simp [depthV, serializeV]
  | h1 b => simp [depthV, serializeV]
  | h2 n => simp [depthV, serializeV]
  | h3 s => simp [depthV, serializeV]
  | h4 bs => simp [depthV, serializeV]
  | h5 t => cases t <;> simp [depthV, serializeV]
  | h6 xs ih =>
    have hl := depthList_le xs ih
    simp only [depthV, serializeV, List.length_cons]
    omega
  | h7 ps ih =>
    have hl := depthFields_le ps ih
    simp only [depthV, serializeV, List.length_cons]
    omega

set_option maxHeartbeats 2000000 in
/-- The serialization parser inverts the serializer, given fuel at
least the depth of the value. -/
theorem deser_ser (fuel : Nat) :
    (∀ v rest, depthV v ≤ fuel → deserV fuel (serializeV v ++ rest) = some (v, rest)) ∧
    (∀ xs rest, depthList xs ≤ fuel →
      deserList fuel xs.length (serializeList xs ++ rest) = some (xs, rest)) ∧
    (∀ ps rest, depthFields ps ≤ fuel →
      deserFields fuel ps.length (serializeFields ps ++ rest) = some (ps, rest)) := by
  induction fuel with
  | zero =>
    refine ⟨fun v rest h => absurd h (by have := depthV_pos v; omega),
      fun xs rest h => ?_, fun ps rest h => ?_⟩
    · cases xs with
      | nil => rfl
      | cons x xs => simp [depthList] at h
    · cases ps with
      | nil => rfl
      | cons p ps => obtain ⟨k, v⟩ := p; simp [depthFields] at h
  | succ f ih =>
    obtain ⟨ihV, ihL, ihF⟩ := ih
    refine ⟨fun v rest h => ?_, fun xs rest h => ?_, fun ps rest h => ?_⟩
    · cases v with
      | null => simp [serializeV, deserV]
      | bool b => cases b <;> simp [serializeV, deserV]
      | num n =>
        have hz : decodeZ (if n < 0 then 1 else 0) n.natAbs = n := by
          by_cases hn : n < 0
          · rw [if_pos hn]; unfold decodeZ; rw [if_pos rfl]; omega
          · rw [if_neg hn]; unfold decodeZ; rw [if_neg (by omega)]; omega
        simp [serializeV, deserV, hz]
      | str s =>
        have hlen : s.length = (s.map Char.toNat).length := by simp
        have ht : ((s.map Char.toNat) ++ rest).take s.length = s.map Char.toNat := by
          rw [hlen, List.take_left]
        have hd : ((s.map Char.toNat) ++ rest).drop s.length = rest := by
          rw [hlen, List.drop_left]
        have hmm : (s.map Char.toNat).map Char.ofNat = s := by
          simp [List.map_map, Function.comp_def, Char.ofNat_toNat]
        simp [serializeV, deserV, ht, hd, hmm]
      | bytes bs =>
        have ht : (bs ++ rest).take bs.length = bs := List.take_left bs rest
        have hd : (bs ++ rest).drop bs.length = rest := List.drop_left bs rest
        simp [serializeV, deserV, ht, hd]
      | date t =>
        cases t with
        | none => simp [serializeV, deserV]
        | some t =>
          have hz : decodeZ (if t < 0 then 1 else 0) t.natAbs = t := by
            by_cases htn : t < 0
            · rw [if_pos htn]; unfold decodeZ; rw [if_pos rfl]; omega
            · rw [if_neg htn]; unfold decodeZ; rw [if_neg (by omega)]; omega
          simp [serializeV, deserV, hz]
      | arr xs =>
        have hx : depthList xs ≤ f := by simp [depthV] at h; omega
        simp [serializeV, deserV, ihL xs rest hx]
      | obj ps =>
        have hx : depthFields ps ≤ f := by simp [depthV] at h; omega
        simp [serializeV, deserV, ihF ps rest hx]
    · cases xs with
      | nil => simp [serializeList, deserList]
      | cons x xs =>
        have hx : depthV x ≤ f := by simp [depthList] at h; omega
        have hxs : depthList xs ≤ f := by simp [depthList] at h; omega
        simp [serializeList, deserList, List.append_assoc, ihV x _ hx, ihL xs rest hxs]
    · cases ps with
      | nil => simp [serializeFields, deserFields]
      | cons p ps =>
        obtain ⟨k, v⟩ := p
        have hv : depthV v ≤ f := by simp [depthFields] at h; omega
        have hps : depthFields ps ≤ f := by simp [depthFields] at h; omega
        have hlen : k.length = (k.map Char.toNat).length := by simp
        have ht : ((k.map Char.toNat) ++ (serializeV v ++ (serializeFields ps ++ rest))).take
            k.length = k.map Char.toNat := by
          rw [hlen, List.take_left]
        have hd : ((k.map Char.toNat) ++ (serializeV v ++ (serializeFields ps ++ rest))).drop
            k.length = serializeV v ++ (serializeFields ps ++ rest) := by
          rw [hlen, List.drop_left]
        have hkk : (k.map Char.toNat).map Char.ofNat = k := by
          simp [List.map_map, Function.comp_def, Char.ofNat_toNat]
        simp [serializeFields, deserFields, List.append_assoc, ht, hd, hkk,
          ihV v _ hv, ihF ps rest hps]

/-- Parsing a whole serialized value recovers it. -/
theorem deserializeV_serializeV (v : JSVal) : deserializeV (serializeV v) = some v := by
  have h1 : depthV v ≤ (serializeV v).length := depthV_le_serialize v
  have h2 := (deser_ser ((serializeV v).length)).1 v [] h1
  rw [List.append_nil] at h2
  rw [deserializeV, h2]

/-! ## Envelope crypto (payload.ts)

The libsodium box primitives are external collaborators; they are
modelled from the spec symbolically: a ciphertext binds the plaintext
to the nonce and to the shared secret of the key pair, and opening
succeeds exactly when the recomputed shared secret and nonce match the
bound ones.  No secrecy property is claimed of this model. -/

/-- libsodium crypto_box nonce length. -/
def crypto_box_NONCEBYTES : Nat := 24

/-- Modelled from the spec: the box public key derived from a secret
key.  The symbolic model identifies the two, which yields the
Diffie-Hellman identity of boxShared below. -/
def boxPublicKey (sk : Nat) : Nat := sk

/-- Modelled from the spec: the shared secret one side derives from
its secret key and the peer's public key; addition makes both sides
agree: boxShared (boxPublicKey skB) skA = boxShared (boxPublicKey skA) skB. -/
def boxShared (pk sk : Nat) : Nat := pk + sk

/-- Modelled from the spec: crypto_box_easy; the ciphertext binds the
plaintext to the nonce and the shared secret.  A real box appends an
authenticator computed over every plaintext byte; the model renders
that binding as a redundant second copy of the plaintext, which
opening verifies byte for byte — so altering any part of the message
region of a sealed envelope invalidates it. -/
def crypto_box_easy (m n : List Nat) (rk sk : Nat) : List Nat :=
  boxShared rk sk :: n.length :: m.length :: (n ++ (m ++ m))

/-- Modelled from the spec: crypto_box_open_easy; yields a plaintext
only when the shared secret recomputed from the claimed sender public
key and the recipient secret key matches the one bound into the
ciphertext, the supplied nonce matches the bound one, and the
authenticator verifies over the whole message region — the ciphertext
must be, in its entirety, an honest sealing of the returned plaintext
(box_open_authentic below).  none models the throw on an authenticity
failure. -/
def crypto_box_open_easy (c n : List Nat) (pk sk : Nat) : Option (List Nat) :=
  match c with
  | s :: ln :: lm :: rest =>
    if s = boxShared pk sk ∧ ln = n.length ∧ rest.take ln = n ∧
        (rest.drop ln).take lm = (rest.drop ln).drop lm ∧ (rest.drop ln).length = 2 * lm
    then some ((rest.drop ln).take lm)
    else none
  | _ => none

theorem box_open_box (m n : List Nat) (rk sk pk sk' : Nat)
    (hs : boxShared rk sk = boxShared pk sk') :
    crypto_box_open_easy (crypto_box_easy m n rk sk) n pk sk' = some m := by
  have hdrop : (n ++ (m ++ m)).drop n.length = m ++ m := List.drop_left n (m ++ m)
  have htake : (n ++ (m ++ m)).take n.length = n := List.take_left n (m ++ m)
  have h1 : (m ++ m).take m.length = m := List.take_left m m
  have h2 : (m ++ m).drop m.length = m := List.drop_left m m
  have hcopy : ((n ++ (m ++ m)).drop n.length).take m.length
      = ((n ++ (m ++ m)).drop n.length).drop m.length := by rw [hdrop, h1, h2]
  have hlen2 : ((n ++ (m ++ m)).drop n.length).length = 2 * m.length := by
    rw [hdrop, List.length_append]; omega
  show (if boxShared rk sk = boxShared pk sk' ∧ n.length = n.length ∧
      (n ++ (m ++ m)).take n.length = n ∧
      ((n ++ (m ++ m)).drop n.length).take m.length
        = ((n ++ (m ++ m)).drop n.length).drop m.length ∧
      ((n ++ (m ++ m)).drop n.length).length = 2 * m.length
    then some (((n ++ (m ++ m)).drop n.length).take m.length) else none) = some m
  rw [if_pos ⟨hs, rfl, htake, hcopy, hlen2⟩, hdrop, h1]

theorem box_open_box_ne (m n n' : List Nat) (rk sk pk sk' : Nat)
    (hs : boxShared rk sk ≠ boxShared pk sk') :
    crypto_box_open_easy (crypto_box_easy m n rk sk) n' pk sk' = none := by
  show (if boxShared rk sk = boxShared pk sk' ∧ n.length = n'.length ∧
      (n ++ (m ++ m)).take n.length = n' ∧
      ((n ++ (m ++ m)).drop n.length).take m.length
        = ((n ++ (m ++ m)).drop n.length).drop m.length ∧
      ((n ++ (m ++ m)).drop n.length).length = 2 * m.length
    then some (((n ++ (m ++ m)).drop n.length).take m.length) else none) = none
  rw [if_neg]
  intro hc
  exact hs hc.1

/-- Integrity of the modelled box: whatever opening accepts is, in its
entirety, the honest sealing of the returned plaintext under the same
shared secret, bound to the supplied nonce.  No ciphertext that is not
such a sealing ever yields a plaintext — in particular none with an
altered message region. -/
theorem box_open_authentic (c n : List Nat) (pk sk : Nat) (m : List Nat)
    (h : crypto_box_open_easy c n pk sk = some m) :
    c = crypto_box_easy m n pk sk := by
  cases c with
  | nil => exact Option.noConfusion h
  | cons s c1 =>
    cases c1 with
    | nil => exact Option.noConfusion h
    | cons ln c2 =>
      cases c2 with
      | nil => exact Option.noConfusion h
      | cons lm rest =>
        simp only [crypto_box_open_easy] at h
        by_cases hc : s = boxShared pk sk ∧ ln = n.length ∧ rest.take ln = n ∧
            (rest.drop ln).take lm = (rest.drop ln).drop lm ∧ (rest.drop ln).length = 2 * lm
        · obtain ⟨hs, hln, hn, hcopy, hlen⟩ := hc
          rw [if_pos ⟨hs, hln, hn, hcopy, hlen⟩] at h
          simp only [Option.some.injEq] at h
          have hlm : lm = m.length := by
            rw [← h, List.length_take, hlen]
            omega
          have hdd : rest.drop ln = m ++ m := by
            calc rest.drop ln
                = (rest.drop ln).take lm ++ (rest.drop ln).drop lm :=
                  (List.take_append_drop lm (rest.drop ln)).symm
              _ = m ++ m := by rw [← hcopy, h]
          have hrest : rest = n ++ (m ++ m) := by
            calc rest = rest.take ln ++ rest.drop ln := (List.take_append_drop ln rest).symm
              _ = n ++ (m ++ m) := by rw [hn, hdd]
          rw [crypto_box_easy, hs, hln, hlm, hrest]
        · rw [if_neg hc] at h
          exact Option.noConfusion h

/-- payload.ts encrypt: wire-encode the input, serialize it to the box
plaintext, seal it with a box under the given nonce (the code draws
the nonce from randombytes_buf; the model receives that randomness as
an argument), and emit the nonce followed by the ciphertext. -/
def encrypt (input : JSVal) (recipientKey secretKey : Nat) (outputNonce : List Nat) :
    Except RPCError (List Nat) :=
  match autoencode input with
  | .error e => .error e
  | .ok o =>
    .ok (outputNonce ++ crypto_box_easy (serializeV o) outputNonce recipientKey secretKey)

/-- payload.ts decrypt: split the fixed-length nonce prefix from the
remaining ciphertext, open the box (the code has no handler: a
libsodium authenticity throw propagates to the caller), parse the
plaintext and wire-decode it. -/
def decrypt (payload : List Nat) (senderKey secretKey : Nat) : Except RPCError JSVal :=
  match crypto_box_open_easy (payload.drop crypto_box_NONCEBYTES)
      (payload.take crypto_box_NONCEBYTES) senderKey secretKey with
  | none => .error .authenticationFailure
  | some message =>
    match deserializeV message with
    | none => .error .parseError
    | some e => autodecode e

theorem encrypt_ok (v : JSVal) (w : JSVal) (rk sk : Nat) (nonce : List Nat)
    (hw : autoencode v = .ok w) :
    encrypt v rk sk nonce = .ok (nonce ++ crypto_box_easy (serializeV w) nonce rk sk) := by
  rw [encrypt, hw]

theorem decrypt_encrypt (v : JSVal) (skA skB : Nat) (nonce : List Nat)
    (hsup : SupportedB v = true) (hn : nonce.length = crypto_box_NONCEBYTES) :
    ∃ env, encrypt v (boxPublicKey skB) skA nonce = .ok env ∧
      decrypt env (boxPublicKey skA) skB = .ok v := by
  obtain ⟨w, hw1, hw2⟩ := encode_decode_roundtrip v hsup
  refine ⟨_, encrypt_ok v w _ _ nonce hw1, ?_⟩
  rw [decrypt]
  have htake : (nonce ++ crypto_box_easy (serializeV w) nonce (boxPublicKey skB) skA).take
      crypto_box_NONCEBYTES = nonce := by
    rw [← hn]; exact List.take_left _ _
  have hdrop : (nonce ++ crypto_box_easy (serializeV w) nonce (boxPublicKey skB) skA).drop
      crypto_box_NONCEBYTES = crypto_box_easy (serializeV w) nonce (boxPublicKey skB) skA := by
    rw [← hn]; exact List.drop_left _ _
  rw [htake, hdrop, box_open_box _ _ _ _ _ _ (by simp only [boxShared, boxPublicKey]; omega)]
  simp only [deserializeV_serializeV, hw2]

theorem decrypt_encrypt_badkeys (v : JSVal) (env : List Nat) (skA skB pk sk : Nat)
    (nonce : List Nat) (hn : nonce.length = crypto_box_NONCEBYTES)
    (henv : encrypt v (boxPublicKey skB) skA nonce = .ok env)
    (hbad : boxShared (boxPublicKey skB) skA ≠ boxShared pk sk) :
    decrypt env pk sk = .error .authenticationFailure := by
  rw [encrypt] at henv
  cases hv : autoencode v with
  | error e => rw [hv] at henv; exact absurd henv (by simp)
  | ok w =>
    rw [hv] at henv
    simp only [Except.ok.injEq] at henv
    subst henv
    rw [decrypt]
    have htake : (nonce ++ crypto_box_easy (serializeV w) nonce (boxPublicKey skB) skA).take
        crypto_box_NONCEBYTES = nonce := by
      rw [← hn]; exact List.take_left _ _
    have hdrop : (nonce ++ crypto_box_easy (serializeV w) nonce (boxPublicKey skB) skA).drop
        crypto_box_NONCEBYTES = crypto_box_easy (serializeV w) nonce (boxPublicKey skB) skA := by
      rw [← hn]; exact List.drop_left _ _
    rw [htake, hdrop, box_open_box_ne _ _ _ _ _ _ _ hbad]

/-- Authenticity of decrypt: whenever decrypt returns a value, the
envelope is — beyond its nonce prefix — exactly the honest box, under
the matching shared secret and that nonce, of a whole plaintext whose
parse and wire-decode give the returned value.  decrypt never emits a
value from a ciphertext that was not sealed in full under the keys: a
partially altered or garbage ciphertext is refused. -/
theorem decrypt_authentic (env : List Nat) (pk sk : Nat) (v : JSVal)
    (h : decrypt env pk sk = .ok v) :
    ∃ msg w, env.drop crypto_box_NONCEBYTES
        = crypto_box_easy msg (env.take crypto_box_NONCEBYTES) pk sk ∧
      deserializeV msg = some w ∧ autodecode w = .ok v := by
  rw [decrypt] at h
  cases ho : crypto_box_open_easy (env.drop crypto_box_NONCEBYTES)
      (env.take crypto_box_NONCEBYTES) pk sk with
  | none => rw [ho] at h; exact Except.noConfusion h
  | some msg =>
    simp only [ho] at h
    cases hd : deserializeV msg with
    | none =>
      simp only [hd] at h
      exact Except.noConfusion h
    | some w =>
      simp only [hd] at h
      exact ⟨msg, w, box_open_authentic _ _ _ _ _ ho, hd, h⟩

/-! ## Session State and the client dispatcher (client.ts) -/

/-- The client-held session fields of RPCClient: caller identifier,
the caller's box key pair, and the server's public key.  Each starts
undefined and is assigned by an implementer's login-style method. -/
structure SessionState where
  userID : Option (List Char)
  privateKey : Option Nat
  publicKey : Option Nat
  serverKey : Option Nat

/-- client.ts isloggedIn: every one of the four fields is defined. -/
def isloggedIn (st : SessionState) : Bool :=
  st.userID.isSome && st.privateKey.isSome && st.publicKey.isSome && st.serverKey.isSome

/-- client.ts logout: reset every field to undefined. -/
def logout (_st : SessionState) : SessionState :=
  { userID := none, privateKey := none, publicKey := none, serverKey := none }

/-- setKeys of the test client (test source): assign all four fields. -/
def setKeys (_st : SessionState) (userID : List Char) (publicKey privateKey serverKey : Nat) :
    SessionState :=
  { userID := some userID, privateKey := some privateKey, publicKey := some publicKey,
    serverKey := some serverKey }

/-- The observable outcome of the first step of one encrypted client
call: either the returned promise rejects locally, with no fetch ever
issued, or one POST request to the named route goes out with the given
body. -/
inductive ClientAction where
  | reject
  | request (rpcName : List Char) (body : JSVal)

/-- client.ts encryptedCall, up to the issuing of the network request:
reject when the session is not logged in; otherwise substitute an
empty object for an undefined input, seal it to the server's key under
the caller's private key (the nonce argument carries the randomness
encrypt draws from randombytes_buf), and issue the POST whose body
carries the envelope and the plaintext caller identifier.  A throw
during sealing rejects the call before any fetch. -/
def encryptedCallStep (st : SessionState) (rpcName : List Char) (args : Option JSVal)
    (nonce : List Nat) : ClientAction :=
  if isloggedIn st = false then .reject
  else
    match st.userID, st.privateKey, st.serverKey with
    | some uid, some sk, some srvk =>
      match encrypt (args.getD (.obj [])) srvk sk nonce with
      | .ok env =>
        .request rpcName (.obj [(['p','a','y','l','o','a','d'], .bytes env),
          (['i','d'], .str uid)])
      | .error _ => .reject
    | _, _, _ => .reject

/-! ## Server dispatch (server.ts) -/

/-- A thrown JS Error carrying its message.  The message and stack of
an Error instance are non-enumerable own properties, so the for-in
loop of autoencode's object branch sees none of them. -/
structure JSError where
  message : List Char

/-- What autoencode yields on a caught Error instance (server.ts feeds
the caught error object straight to autoencode for the 500 body): the
object branch rebuilds it from its enumerable own properties, of which
an Error has none. -/
def autoencodeError (_e : JSError) : JSVal := .obj []

/-- The minimal server-side user record (types.ts RPCUser). -/
structure RPCUser where
  id : List Char
  publicKey : Nat

/-- Decoded request body of an encrypted call (types.ts RPCPayload):
the plaintext caller identifier and the envelope bytes.  Dispatch
casts the decoded body to this shape. -/
structure RPCPayload where
  id : List Char
  payload : List Nat

/-- The 401 body server.ts sends: autoencode of the object carrying
the fixed no-such-user message, on which autoencode is the identity
(shown by the lemma below). -/
def noSuchUserBody : JSVal :=
  .obj [(['m','e','s','s','a','g','e'],
    .str ['N','o',' ','s','u','c','h',' ','u','s','e','r',' ','f','o','u','n','d','.'])]

theorem autoencode_noSuchUserBody : autoencode noSuchUserBody = .ok noSuchUserBody := rfl

/-- server.ts handle, from the decoded request body on: invoke the
handler, encode its result, answer 200; any throw of the handler (or
of the encoding — the invalid-Date RangeError instance also encodes
to the empty object) is caught at the dispatch boundary and answered
500 with the encoding of the caught error.  The result lists the
responses written, in order. -/
def handleDispatch (fn : JSVal → Except JSError JSVal) (decodedBody : JSVal) :
    List (Nat × JSVal) :=
  match fn decodedBody with
  | .error e => [(500, autoencodeError e)]
  | .ok output =>
    match autoencode output with
    | .ok w => [(200, w)]
    | .error _ => [(500, .obj [])]

/-- server.ts encryptedHandle, from the decoded request body on.  The
inner try assigns identity and decrypted payload; when getUser or
decrypt throws, its catch writes a 401 — and, the inner block having
no return, execution continues: the handler is invoked regardless,
with an undefined identity when lookup failed, and a further response
write is attempted.  The outer catch answers 500 with the encoding of
the caught error (a handler throw, or the TypeError raised by reading
publicKey of the undefined identity).  Returns the list of response
writes attempted, in order, and whether the handler was invoked. -/
def encryptedDispatch (getUser : List Char → Except JSError RPCUser)
    (serverPrivateKey : Nat)
    (fn : Option RPCUser → Option JSVal → Except JSError (Option JSVal))
    (body : RPCPayload) (respNonce : List Nat) : List (Nat × JSVal) × Bool :=
  let inner : Option RPCUser × Option JSVal × List (Nat × JSVal) :=
    match getUser body.id with
    | .error _ => (none, none, [(401, noSuchUserBody)])
    | .ok identity =>
      match decrypt body.payload identity.publicKey serverPrivateKey with
      | .error _ => (some identity, none, [(401, noSuchUserBody)])
      | .ok p => (some identity, some p, [])
  match fn inner.1 inner.2.1 with
  | .error e => (inner.2.2 ++ [(500, autoencodeError e)], true)
  | .ok out =>
    match inner.1 with
    | none => (inner.2.2 ++ [(500, .obj [])], true)
    | some identity =>
      match encrypt (out.getD (.obj [])) identity.publicKey serverPrivateKey respNonce with
      | .error _ => (inner.2.2 ++ [(500, .obj [])], true)
      | .ok env => (inner.2.2 ++ [(200, .str (hexTag ++ to_hex env))], true)

/-! ## Claimed properties -/

/-- C1: for every supported value — any finite nesting of null,
booleans, numbers, plain strings not beginning with a reserved tag,
byte buffers, timestamps, sequences and string-keyed mappings,
including empty containers — autodecode after autoencode returns the
value unchanged, structurally and byte for byte; in particular null
passes through and a timestamp round-trips at millisecond
precision. -/
theorem C1_roundtrip (v : JSVal) (h : SupportedB v = true) :
    (autoencode v).bind autodecode = Except.ok v := by
  obtain ⟨w, hw1, hw2⟩ := encode_decode_roundtrip v h
  rw [hw1]
  exact hw2

/-- A concrete nested supported value exercising every constructor and
an empty container. -/
def c1WitnessValue : JSVal :=
  .arr [.null, .bool true, .num (-5), .str ['h', 'i'],
    .date (some 1700000000000), .bytes [0, 255], .obj []]

/-- Witness for C1 at a concrete deeply nested value. -/
theorem C1_roundtrip_witness :
    SupportedB c1WitnessValue = true ∧
      (autoencode c1WitnessValue).bind autodecode = Except.ok c1WitnessValue :=
  ⟨by decide, C1_roundtrip c1WitnessValue (by decide)⟩

/-- C2: decrypting, with the matching keys, the envelope that encrypt
produced returns the original supported value:
decrypt (encrypt v pkB skA) pkA skB = v, for any nonce of the
required box length. -/
theorem C2_encrypt_decrypt (v : JSVal) (skA skB : Nat) (nonce : List Nat)
    (hsup : SupportedB v = true) (hn : nonce.length = crypto_box_NONCEBYTES) :
    ∃ env, encrypt v (boxPublicKey skB) skA nonce = .ok env ∧
      decrypt env (boxPublicKey skA) skB = .ok v :=
  decrypt_encrypt v skA skB nonce hsup hn

/-- A concrete box nonce. -/
def nonceA : List Nat := List.replicate 24 0

/-- A second, different concrete box nonce. -/
def nonceB : List Nat := List.replicate 24 1

/-- Witness for C2 at concrete keys and nonce. -/
theorem C2_encrypt_decrypt_witness :
    SupportedB JSVal.null = true ∧ nonceA.length = crypto_box_NONCEBYTES ∧
      ∃ env, encrypt JSVal.null (boxPublicKey 2) 1 nonceA = .ok env ∧
        decrypt env (boxPublicKey 1) 2 = .ok JSVal.null :=
  ⟨rfl, by decide, C2_encrypt_decrypt JSVal.null 1 2 nonceA rfl (by decide)⟩

/-- A user lookup that fails for every identifier. -/
def failingGetUser : List Char → Except JSError RPCUser :=
  fun _ => .error { message := ['n', 'o', 'b', 'o', 'd', 'y'] }

/-- A handler resolving to true, as in the repository's test server. -/
def trueHandler : Option RPCUser → Option JSVal → Except JSError (Option JSVal) :=
  fun _ _ => .ok (some (.bool true))

/-- A decoded encrypted-request body whose identifier resolves to no
user. -/
def c3Body : RPCPayload := { id := ['n', 'o', 'b', 'o', 'd', 'y'], payload := [] }

/-- C3, the code evaluated at the failing input: when the user lookup
fails, encryptedHandle writes the 401 with the fixed no-such-user body
— and then, lacking the early return, still invokes the handler (with
an undefined identity) and attempts a second, 500, response write. -/
theorem C3_lookup_failure_continues :
    encryptedDispatch failingGetUser 0 trueHandler c3Body nonceA
      = ([(401, noSuchUserBody), (500, .obj [])], true) := rfl

/-- C4: for an envelope sealed under sender key pair skA, opening with
any claimed sender public key other than the sender's, or with a
recipient secret key other than the intended recipient's, fails with
the authentication failure and returns no value; and decrypt under
the matching keys never returns partial or garbage plaintext: any
envelope it accepts is — beyond its nonce prefix — in its entirety
the honest box, under the matching shared secret and that nonce, of a
whole plaintext whose decode is the returned value, so every envelope
with a tampered message region is refused (the model's authenticator
binds every plaintext byte; the witness exercises a concrete
tampering). -/
theorem C4_auth_failure (v : JSVal) (env : List Nat) (skA skB pk sk : Nat)
    (nonce : List Nat) (hn : nonce.length = crypto_box_NONCEBYTES)
    (henv : encrypt v (boxPublicKey skB) skA nonce = .ok env) :
    (pk ≠ boxPublicKey skA → decrypt env pk skB = .error .authenticationFailure) ∧
    (sk ≠ skB → decrypt env (boxPublicKey skA) sk = .error .authenticationFailure) ∧
    (∀ env' v', decrypt env' (boxPublicKey skA) skB = .ok v' →
      ∃ msg w, env'.drop crypto_box_NONCEBYTES
          = crypto_box_easy msg (env'.take crypto_box_NONCEBYTES) (boxPublicKey skA) skB ∧
        deserializeV msg = some w ∧ autodecode w = .ok v') := by
  refine ⟨?_, ?_, fun env' v' h => decrypt_authentic env' _ _ v' h⟩
  · intro hpk
    have hpk2 : pk ≠ skA := hpk
    refine decrypt_encrypt_badkeys v env skA skB pk skB nonce hn henv ?_
    simp only [boxShared, boxPublicKey]
    omega
  · intro hsk
    refine decrypt_encrypt_badkeys v env skA skB (boxPublicKey skA) sk nonce hn henv ?_
    simp only [boxShared, boxPublicKey]
    omega

/-- The concrete envelope encrypt yields for null under the witness
keys and nonce: nonce, then shared secret, nonce length, message
length, bound nonce, message and its authenticating copy. -/
def envC4 : List Nat := nonceA ++ (3 :: 24 :: 1 :: (nonceA ++ [0, 0]))

/-- envC4 with its message byte altered and the authenticating copy
left untouched: a tampered ciphertext. -/
def envC4tampered : List Nat := nonceA ++ (3 :: 24 :: 1 :: (nonceA ++ [5, 0]))

/-- Witness for C4 at concrete keys: a wrong sender public key and a
wrong recipient secret key each fail; decrypt under the honest keys
accepts the honest envelope with the authentic-sealing consequence,
and refuses the envelope whose message region was tampered. -/
theorem C4_auth_failure_witness :
    nonceA.length = crypto_box_NONCEBYTES ∧
      encrypt JSVal.null (boxPublicKey 2) 1 nonceA = .ok envC4 ∧
      decrypt envC4 5 2 = .error .authenticationFailure ∧
      decrypt envC4 (boxPublicKey 1) 7 = .error .authenticationFailure ∧
      decrypt envC4 (boxPublicKey 1) 2 = .ok JSVal.null ∧
      (∃ msg w, envC4.drop crypto_box_NONCEBYTES
          = crypto_box_easy msg (envC4.take crypto_box_NONCEBYTES) (boxPublicKey 1) 2 ∧
        deserializeV msg = some w ∧ autodecode w = .ok JSVal.null) ∧
      decrypt envC4tampered (boxPublicKey 1) 2 = .error .authenticationFailure :=
  ⟨by decide, rfl,
    (C4_auth_failure JSVal.null envC4 1 2 5 7 nonceA (by decide) rfl).1 (by decide),
    (C4_auth_failure JSVal.null envC4 1 2 5 7 nonceA (by decide) rfl).2.1 (by decide),
    rfl,
    (C4_auth_failure JSVal.null envC4 1 2 5 7 nonceA (by decide) rfl).2.2 envC4
      JSVal.null rfl,
    rfl⟩

/-- C5: a function returned by encryptedCall, invoked while the
session state is not logged in (any field absent), rejects at once:
no network request is issued. -/
theorem C5_not_authenticated (st : SessionState) (rpcName : List Char)
    (args : Option JSVal) (nonce : List Nat) (h : isloggedIn st = false) :
    encryptedCallStep st rpcName args nonce = ClientAction.reject := by
  rw [encryptedCallStep, if_pos h]

/-- A partial session state: only the identifier is missing. -/
def partialSession : SessionState :=
  { userID := none, privateKey := some 1, publicKey := some 1, serverKey := some 2 }

/-- Witness for C5 at a partially absent session state. -/
theorem C5_not_authenticated_witness :
    isloggedIn partialSession = false ∧
      encryptedCallStep partialSession ['t', 'e', 's', 't'] none nonceA
        = ClientAction.reject :=
  ⟨rfl, C5_not_authenticated _ _ _ _ rfl⟩

/-- C6: a handler that raises any error makes the server answer 500
with the generically encoded error body — the empty object, since an
Error instance has no enumerable own properties — so the response is
the same whatever error was raised and the error's message never
appears in the content sent; so for unencrypted dispatch, and likewise
for encrypted dispatch. -/
theorem C6_generic_500 :
    (∀ (fn : JSVal → Except JSError JSVal) (body : JSVal) (e : JSError),
      fn body = .error e → handleDispatch fn body = [(500, .obj [])]) ∧
    (∀ (getUser : List Char → Except JSError RPCUser) (sk : Nat) (body : RPCPayload)
      (nonce : List Nat) (e e' : JSError),
      encryptedDispatch getUser sk (fun _ _ => .error e) body nonce
        = encryptedDispatch getUser sk (fun _ _ => .error e') body nonce ∧
      ∃ rs, encryptedDispatch getUser sk (fun _ _ => .error e) body nonce
        = (rs ++ [(500, .obj [])], true)) := by
  constructor
  · intro fn body e hfb
    rw [handleDispatch, hfb]
    rfl
  · intro getUser sk body nonce e e'
    constructor
    · rfl
    · cases hg : getUser body.id with
      | error e2 =>
        refine ⟨[(401, noSuchUserBody)], ?_⟩
        simp only [encryptedDispatch, hg, autoencodeError]
      | ok identity =>
        cases hd : decrypt body.payload identity.publicKey sk with
        | error e3 =>
          refine ⟨[(401, noSuchUserBody)], ?_⟩
          simp only [encryptedDispatch, hg, hd, autoencodeError]
        | ok p =>
          refine ⟨[], ?_⟩
          simp only [encryptedDispatch, hg, hd, autoencodeError, List.nil_append]

/-- Witness for C6: two different raised errors, same responses. -/
theorem C6_generic_500_witness :
    handleDispatch (fun _ => .error { message := ['o', 'h'] }) JSVal.null
        = [(500, JSVal.obj [])] ∧
      (encryptedDispatch failingGetUser 0
          (fun _ _ => .error { message := ['o', 'h'] }) c3Body nonceA
        = encryptedDispatch failingGetUser 0
          (fun _ _ => .error { message := ['n', 'o'] }) c3Body nonceA ∧
      ∃ rs, encryptedDispatch failingGetUser 0
          (fun _ _ => .error { message := ['o', 'h'] }) c3Body nonceA
        = (rs ++ [(500, JSVal.obj [])], true)) :=
  ⟨C6_generic_500.1 _ JSVal.null { message := ['o', 'h'] } rfl,
    C6_generic_500.2 failingGetUser 0 c3Body nonceA
      { message := ['o', 'h'] } { message := ['n', 'o'] }⟩

/-- C7: sealing the same value twice with the same keys and the fresh
(hence distinct) nonces of two separate calls yields two distinct
envelopes, and each opens under the matching keys to the value. -/
theorem C7_nonce_freshness (v : JSVal) (skA skB : Nat) (n₁ n₂ : List Nat)
    (hsup : SupportedB v = true)
    (h1 : n₁.length = crypto_box_NONCEBYTES) (h2 : n₂.length = crypto_box_NONCEBYTES)
    (hne : n₁ ≠ n₂) :
    ∃ env₁ env₂,
      encrypt v (boxPublicKey skB) skA n₁ = .ok env₁ ∧
      encrypt v (boxPublicKey skB) skA n₂ = .ok env₂ ∧
      env₁ ≠ env₂ ∧
      decrypt env₁ (boxPublicKey skA) skB = .ok v ∧
      decrypt env₂ (boxPublicKey skA) skB = .ok v := by
  obtain ⟨e1, he1, hd1⟩ := decrypt_encrypt v skA skB n₁ hsup h1
  obtain ⟨e2, he2, hd2⟩ := decrypt_encrypt v skA skB n₂ hsup h2
  refine ⟨e1, e2, he1, he2, ?_, hd1, hd2⟩
  intro he
  cases hv : autoencode v with
  | error e => rw [encrypt, hv] at he1; exact absurd he1 (by simp)
  | ok w =>
    rw [encrypt, hv] at he1 he2
    simp only [Except.ok.injEq] at he1 he2
    have ht1 : e1.take crypto_box_NONCEBYTES = n₁ := by
      rw [← he1, ← h1]; exact List.take_left _ _
    have ht2 : e2.take crypto_box_NONCEBYTES = n₂ := by
      rw [← he2, ← h2]; exact List.take_left _ _
    exact hne (by rw [← ht1, he, ht2])

/-- Witness for C7 at concrete keys and two distinct nonces. -/
theorem C7_nonce_freshness_witness :
    SupportedB JSVal.null = true ∧ nonceA ≠ nonceB ∧
      ∃ env₁ env₂,
        encrypt JSVal.null (boxPublicKey 2) 1 nonceA = .ok env₁ ∧
        encrypt JSVal.null (boxPublicKey 2) 1 nonceB = .ok env₂ ∧
        env₁ ≠ env₂ ∧
        decrypt env₁ (boxPublicKey 1) 2 = .ok JSVal.null ∧
        decrypt env₂ (boxPublicKey 1) 2 = .ok JSVal.null :=
  ⟨rfl, by decide,
    C7_nonce_freshness JSVal.null 1 2 nonceA nonceB rfl (by decide) (by decide) (by decide)⟩

/-- C8 counterexample: on a date$-tagged string with unparseable
remainder, autodecode does not fail — it returns an Invalid-Date
value, so no EncodingError reaches the caller for this input. -/
theorem C8_counterexample :
    autodecode (.str ['d', 'a', 't', 'e', '$', 'x']) = .ok (.date none) ∧
      ∀ e, autodecode (.str ['d', 'a', 't', 'e', '$', 'x']) ≠ .error e := by
  constructor
  · rfl
  · intro e h
    rw [show autodecode (.str ['d', 'a', 't', 'e', '$', 'x']) = .ok (.date none)
      from rfl] at h
    exact Except.noConfusion h

/-- C8 amended: a hex$ string whose remainder is malformed hex makes
autodecode fail with the EncodingError, which propagates to the
caller of decode; a date$ string with unparseable remainder does not
fail — autodecode recovers it as an Invalid-Date timestamp value. -/
theorem C8_amended (s : List Char) :
    (from_hex s = none → autodecode (.str (hexTag ++ s)) = .error .encodingError) ∧
    (parseMillis s = none → autodecode (.str (dateTag ++ s)) = .ok (.date none)) := by
  constructor
  · intro hf
    have hdrop : (hexTag ++ s).drop 4 = s := List.drop_left hexTag s
    simp [autodecode, hasTag_append, hdrop, hf]
  · intro hp
    have hdrop : (dateTag ++ s).drop 5 = s := List.drop_left dateTag s
    simp [autodecode, hasTag_hexTag_dateTag, hasTag_append, hdrop, hp]

/-- Witness for the amended C8 on the remainder x, non-hex and not a
timestamp. -/
theorem C8_amended_witness :
    from_hex ['x'] = none ∧
      autodecode (.str (hexTag ++ ['x'])) = .error .encodingError ∧
      parseMillis ['x'] = none ∧
      autodecode (.str (dateTag ++ ['x'])) = .ok (.date none) :=
  ⟨rfl, (C8_amended ['x']).1 rfl, rfl, (C8_amended ['x']).2 rfl⟩

/-- C9: isloggedIn holds exactly when all four session fields are
present — any partial or absent state reads as logged out — and
logout clears all four fields, after which isloggedIn is false and an
encrypted call on the same client is rejected. -/
theorem C9_session_lifecycle :
    (∀ st, isloggedIn st = true ↔
      (st.userID.isSome = true ∧ st.privateKey.isSome = true ∧
        st.publicKey.isSome = true ∧ st.serverKey.isSome = true)) ∧
    (∀ st, logout st = SessionState.mk none none none none) ∧
    (∀ st, isloggedIn (logout st) = false) ∧
    (∀ st rpcName args nonce, encryptedCallStep (logout st) rpcName args nonce
      = ClientAction.reject) := by
  refine ⟨fun st => ?_, fun _ => rfl, fun _ => rfl, fun st rpcName args nonce => ?_⟩
  · simp [isloggedIn, and_assoc]
  · rw [encryptedCallStep, if_pos (show isloggedIn (logout st) = false from rfl)]

/-- C10: autoencode is idempotent — re-encoding its own output is the
identity, because every value it emits is free of byte buffers and
timestamps (null, booleans, numbers, strings, arrays and plain
objects only). -/
theorem C10_idempotent :
    (∀ v, (autoencode v).bind autoencode = autoencode v) ∧
    (∀ v w, autoencode v = .ok w → EncodedB w = true) := by
  constructor
  · intro v
    cases hv : autoencode v with
    | error e => rfl
    | ok w => exact encoded_fix w (autoencode_encoded v w hv)
  · exact autoencode_encoded

/-- Witness for C10: the encoding of a byte buffer is a tag-free wire
value. -/
theorem C10_idempotent_witness :
    autoencode (.bytes [1]) = .ok (.str (hexTag ++ to_hex [1])) ∧
      EncodedB (.str (hexTag ++ to_hex [1])) = true :=
  ⟨rfl, C10_idempotent.2 (.bytes [1]) _ rfl⟩
